import Mathlib

/-
Verification of the proof-of-work registration engine of
`bittensor_cli/src/bittensor/extrinsics/registration.py`.

Shallow embedding conventions:
* Python `bytes` values are `List Nat` whose elements are below 256.
* Python unbounded `int` is `Nat` (or `Int` where the source can go negative).
* Python floats (hash rates, the EWMA decay `alpha_`) are modelled as exact
  rationals `ℚ`; the decimal literal `0.80` is taken as `4/5`.
* The external hash primitives `hashlib.sha256` and `Crypto.Hash.keccak`
  (library imports, not code of this repository) are abstract parameters
  `sha256 keccak256 : List Nat → List Nat`; every theorem quantifies over
  them.
* `int.to_bytes(8, "little")` raises `OverflowError` for ints of 64 bits or
  more, so it is embedded as an `Option`; code paths that can hit the raise
  are embedded as `Except Unit` (the error being the uncaught exception).
-/

namespace Registration

/-- Python `random.randint(a, b)`: the support of the draw, inclusive on both
ends. -/
def randint_support (a b x : Nat) : Prop := a ≤ x ∧ x ≤ b

/-- One hex digit as its ASCII character code, matching `binascii.hexlify`
which emits lowercase hex. -/
def hexDigitChar (d : Nat) : Nat := if d < 10 then 48 + d else 87 + d

/-- Python `binascii.hexlify`: each byte becomes two lowercase hex character
codes, high nibble first. -/
def hexlify : List Nat → List Nat
  | [] => []
  | b :: rest => hexDigitChar (b / 16) :: hexDigitChar (b % 16) :: hexlify rest

/-- Value of one hex character code, as computed by Python `int(c, 16)` for
the characters `0`-`9`, `A`-`F`, `a`-`f`. -/
def hexCharVal (c : Nat) : Nat :=
  if 97 ≤ c then c - 87 else if 65 ≤ c then c - 55 else c - 48

/-- Embedding of `_hex_bytes_to_u8_list`: chunk the hex string into pairs and
parse each pair with `int(_, 16)` (a trailing lone character is parsed as a
single hex digit, as `int` does). -/
def hex_bytes_to_u8_list : List Nat → List Nat
  | c1 :: c2 :: rest => (16 * hexCharVal c1 + hexCharVal c2) :: hex_bytes_to_u8_list rest
  | [c] => [hexCharVal c]
  | [] => []

/-- Little-endian byte expansion of a natural number into `len` bytes. -/
def toBytesLEList : Nat → Nat → List Nat
  | _, 0 => []
  | n, len + 1 => n % 256 :: toBytesLEList (n / 256) len

/-- Python `n.to_bytes(len, "little")`: raises `OverflowError` (here `none`)
when `n` does not fit in `len` bytes. -/
def to_bytes_le (n len : Nat) : Option (List Nat) :=
  if n < 2 ^ (8 * len) then some (toBytesLEList n len) else none

/-- Embedding of `_create_seal_hash`: hexlify the 8-byte little-endian nonce,
append the first 64 hex characters of the hexlified fingerprint, hex-decode,
then SHA-256 followed by Keccak-256.  The two hash primitives are abstract
parameters. -/
def create_seal_hash (sha256 keccak256 : List Nat → List Nat)
    (block_and_hotkey_hash_bytes : List Nat) (nonce : Nat) : Option (List Nat) :=
  (to_bytes_le nonce 8).map (fun nb =>
    let nonce_bytes := hexlify nb
    let pre_seal := nonce_bytes ++ (hexlify block_and_hotkey_hash_bytes).take 64
    keccak256 (sha256 (hex_bytes_to_u8_list pre_seal)))

/-- Python `int.from_bytes(seal, "big")`. -/
def int_from_bytes_be (bs : List Nat) : Nat := bs.foldl (fun acc b => acc * 256 + b) 0

/-- Embedding of `_seal_meets_difficulty`: the big-endian seal value times the
difficulty must be strictly below the limit. -/
def seal_meets_difficulty (seal_ : List Nat) (difficulty limit : Nat) : Bool :=
  decide (int_from_bytes_be seal_ * difficulty < limit)

/-- Embedding of the `POWSolution` dataclass (`seal` is a Lean keyword, so
the field is named `seal_`). -/
structure POWSolution where
  nonce : Nat
  block_number : Int
  difficulty : Nat
  seal_ : List Nat
  deriving DecidableEq, Repr

/-- Embedding of `POWSolution.is_stale`: stale when the solved block number is
below the current block number minus 3. -/
def POWSolution.is_stale (s : POWSolution) (current_block : Int) : Bool :=
  decide (s.block_number < current_block - 3)

/-- The seal `_create_seal_hash` produces for an in-range nonce. -/
def derived_seal (sha256 keccak256 : List Nat → List Nat)
    (block_and_hotkey_hash_bytes : List Nat) (nonce : Nat) : List Nat :=
  keccak256 (sha256 (hex_bytes_to_u8_list
    (hexlify (toBytesLEList nonce 8) ++ (hexlify block_and_hotkey_hash_bytes).take 64)))

/-- Whether the seal derived for `nonce` meets the difficulty. -/
def nonce_meets (sha256 keccak256 : List Nat → List Nat)
    (block_and_hotkey_hash_bytes : List Nat) (difficulty limit nonce : Nat) : Bool :=
  seal_meets_difficulty (derived_seal sha256 keccak256 block_and_hotkey_hash_bytes nonce)
    difficulty limit

/-- The loop body of `_solve_for_nonce_block`, by remaining iteration count:
`for nonce in range(nonce_start, nonce_end)` derive the seal and return the
first `POWSolution` whose seal meets the difficulty; `Except.error ()` is the
`OverflowError` raised by `nonce.to_bytes(8, "little")` at a nonce of 64 bits
or more. -/
def solveLoop (sha256 keccak256 : List Nat → List Nat)
    (block_and_hotkey_hash_bytes : List Nat) (difficulty limit : Nat)
    (block_number : Int) : Nat → Nat → Except Unit (Option POWSolution)
  | _, 0 => .ok none
  | nonce, count + 1 =>
    match create_seal_hash sha256 keccak256 block_and_hotkey_hash_bytes nonce with
    | none => .error ()
    | some s =>
      if seal_meets_difficulty s difficulty limit then
        .ok (some ⟨nonce, block_number, difficulty, s⟩)
      else
        solveLoop sha256 keccak256 block_and_hotkey_hash_bytes difficulty limit
          block_number (nonce + 1) count

/-- Embedding of `_solve_for_nonce_block`, argument order as in the source
(with the abstract hash primitives prepended). -/
def solve_for_nonce_block (sha256 keccak256 : List Nat → List Nat)
    (nonce_start nonce_end : Nat) (block_and_hotkey_hash_bytes : List Nat)
    (difficulty limit : Nat) (block_number : Int) : Except Unit (Option POWSolution) :=
  solveLoop sha256 keccak256 block_and_hotkey_hash_bytes difficulty limit block_number
    nonce_start (nonce_end - nonce_start)

/-- The `nonce_limit = int(math.pow(2, 64)) - 1` constant of both solver run
loops. -/
def nonce_limit : Nat := 2 ^ 64 - 1

/-- The nonces one CPU batch examines: `range(nonce_start, nonce_start +
update_interval)`. -/
def solver_batch (nonce_start update_interval : Nat) : List Nat :=
  List.range' nonce_start update_interval

/-- The post-draw adjustment of a follow-up CPU batch start:
`nonce_start = random.randint(0, nonce_limit); nonce_start = nonce_start %
nonce_limit`. -/
def solver_next_start (draw : Nat) : Nat := draw % nonce_limit

/-- Embedding of the `_CUDASolver.run` cursor step: `nonce_start +=
update_interval * tpb; nonce_start = nonce_start % nonce_limit`. -/
def cuda_solver_advance (nonce_start update_interval tpb : Nat) : Nat :=
  (nonce_start + update_interval * tpb) % nonce_limit

/-- Difficulty selection inside `_get_block_with_retry`: `1_000_000 if netuid
== -1 else int(<chain-supplied difficulty>)`. -/
def get_block_with_retry_difficulty (netuid : Int) (chain_difficulty : Nat) : Nat :=
  if netuid = -1 then 1000000 else chain_difficulty

/-- Embedding of the process-count resolution in `_solve_for_difficulty_fast`:
`if not num_processes: num_processes = min(1, get_cpu_count())` (Python `not`
is true for both `None` and `0`). -/
def resolve_num_processes (num_processes : Option Nat) (cpu_count : Nat) : Nat :=
  match num_processes with
  | none => min 1 cpu_count
  | some 0 => min 1 cpu_count
  | some (k + 1) => k + 1

/-- Embedding of `_registration_diff_pack`: high half `diff >> 32`, low half
`diff & 0xFFFFFFFF`. -/
def registration_diff_pack (diff : Nat) : Nat × Nat :=
  (diff >>> 32, diff &&& 0xFFFFFFFF)

/-- Embedding of `_registration_diff_unpack`: `packed_diff[0] << 32 |
packed_diff[1]`. -/
def registration_diff_unpack (packed_diff : Nat × Nat) : Nat :=
  packed_diff.1 <<< 32 ||| packed_diff.2

/-- The `limit = int(math.pow(2, 256)) - 1` constant of `_block_solver`
(`math.pow(2, 256)` is an exact power-of-two float). -/
def pow_limit : Nat := 2 ^ 256 - 1

/-- Default EWMA window size: the `n_samples: int = 10` parameter default. -/
def n_samples_default : Nat := 10

/-- Default EWMA decay: the `alpha_: float = 0.80` parameter default. -/
def alpha_default : ℚ := 4 / 5

/-- The `weights = [alpha_**i for i in range(n_samples)]` list of
`_block_solver`. -/
def ewma_weights (alpha : ℚ) (n_samples : Nat) : List ℚ :=
  (List.range n_samples).map (fun i => alpha ^ i)

/-- The window update of `_block_solver`: `hash_rates.append(hash_rate_);
hash_rates.pop(0)` (the window starts as `[0] * n_samples`, so the newest
sample sits at the end of the list). -/
def hash_rates_push (hash_rates : List ℚ) (r : ℚ) : List ℚ :=
  (hash_rates ++ [r]).tail

/-- The instantaneous hash rate of `_block_solver`:
`sum([hash_rates[i] * weights[i] for i in range(n_samples)]) / sum(weights)`,
with `weights[i] = alpha_**i`. -/
def hash_rate_ewma (alpha : ℚ) (n_samples : Nat) (hash_rates : List ℚ) : ℚ :=
  ((List.range n_samples).map (fun i => hash_rates.getD i 0 * alpha ^ i)).sum
    / (ewma_weights alpha n_samples).sum

/-- Modelled from the spec's words, for comparison with `hash_rate_ewma`: the
sample `i` positions back (`i = 0` being the most recent sample, i.e. the last
element of the window) carries weight `alpha^i`; the rate is the weighted sum
divided by the sum of the weights. -/
def spec_hash_rate_ewma (alpha : ℚ) (n_samples : Nat) (hash_rates : List ℚ) : ℚ :=
  ((List.range n_samples).map
      (fun i => hash_rates.getD (n_samples - 1 - i) 0 * alpha ^ i)).sum
    / (ewma_weights alpha n_samples).sum

/-- C7: a `POWSolution` with block number `B` is stale iff `B <
current_chain_height - 3`; in particular `is_stale` is false at current height
`B + 3` and true at `B + 4`. -/
theorem C7_is_stale_boundary :
    (∀ (s : POWSolution) (current_block : Int),
      s.is_stale current_block = true ↔ s.block_number < current_block - 3) ∧
    (∀ s : POWSolution,
      s.is_stale (s.block_number + 3) = false ∧ s.is_stale (s.block_number + 4) = true) := by
  constructor
  · intro s current_block
    simp [POWSolution.is_stale]
  · intro s
    constructor <;> simp [POWSolution.is_stale] <;> omega

/-- C9: for every u64 difficulty `d`, unpacking the packed pair
`(d >> 32, d & 0xFFFFFFFF)` as `(high << 32) | low` yields `d` again. -/
theorem C9_diff_pack_roundtrip (d : Nat) (h : d < 2 ^ 64) :
    registration_diff_unpack (registration_diff_pack d) = d := by
  unfold registration_diff_unpack registration_diff_pack
  have h1 : d &&& 0xFFFFFFFF = d % 2 ^ 32 := Nat.and_pow_two_sub_one_eq_mod d 32
  have h2 : (d >>> 32) <<< 32 = 2 ^ 32 * (d / 2 ^ 32) := by
    rw [Nat.shiftLeft_eq, Nat.shiftRight_eq_div_pow, Nat.mul_comm]
  have h3 : 2 ^ 32 * (d / 2 ^ 32) ||| d % 2 ^ 32 = 2 ^ 32 * (d / 2 ^ 32) + d % 2 ^ 32 :=
    (Nat.mul_add_lt_is_or (Nat.mod_lt d (by norm_num)) (d / 2 ^ 32)).symm
  simp only [h1, h2, h3]
  omega

/-- C9 witness: the round-trip evaluated at the concrete u64 value
`2^63 + 12345`. -/
theorem C9_diff_pack_roundtrip_witness :
    registration_diff_unpack (registration_diff_pack (2 ^ 63 + 12345)) = 2 ^ 63 + 12345 :=
  C9_diff_pack_roundtrip (2 ^ 63 + 12345) (by norm_num)

/-- C2 counterexample: on the no-subnet faucet path (`netuid = -1`) the code
uses difficulty `1_000_000`, not `1` as the claim states. -/
theorem C2_faucet_difficulty_counterexample :
    get_block_with_retry_difficulty (-1) 0 = 1000000 ∧ (1000000 : Nat) ≠ 1 := by
  constructor
  · simp [get_block_with_retry_difficulty]
  · decide

/-- C2 amended: on the no-subnet faucet path (`netuid = -1`) the difficulty is
the fixed sentinel `1_000_000`; the difficulty used for a search round is
greater than 0 whenever the round is a faucet round or the chain-supplied
difficulty is positive (on a subnet path the code passes the chain value
through unchanged). -/
theorem C2_difficulty_amended (netuid : Int) (chain_difficulty : Nat)
    (h : netuid = -1 ∨ 0 < chain_difficulty) :
    0 < get_block_with_retry_difficulty netuid chain_difficulty ∧
    (netuid = -1 → get_block_with_retry_difficulty netuid chain_difficulty = 1000000) := by
  unfold get_block_with_retry_difficulty
  rcases h with h | h
  · subst h
    norm_num
  · constructor
    · split
      · norm_num
      · exact h
    · intro he
      simp [he]

/-- C2 witness: the amended statement instantiated on the faucet path with
chain difficulty 0. -/
theorem C2_difficulty_amended_witness :
    0 < get_block_with_retry_difficulty (-1) 0 ∧
      get_block_with_retry_difficulty (-1) 0 = 1000000 :=
  ⟨(C2_difficulty_amended (-1) 0 (Or.inl rfl)).1,
   (C2_difficulty_amended (-1) 0 (Or.inl rfl)).2 rfl⟩

/-- C3: when the caller supplies no process count, `_solve_for_difficulty_fast`
computes `min(1, get_cpu_count())`, which is 1 on an 8-core machine, not the
core count 8 promised by the claim and by `create_pow`'s own docstring. -/
theorem C3_default_process_count_bug :
    resolve_num_processes none 8 = 1 ∧ resolve_num_processes none 8 ≠ 8 := by
  constructor <;> decide

/-- C6 counterexample: after a batch with `nonce_start = 2^64 - 1`,
`update_interval = 50000`, `tpb = 512`, the CUDA cursor becomes
`25_600_000` (reduction modulo `2^64 - 1`), while reduction modulo `2^64`
as claimed would give `25_599_999`. -/
theorem C6_cuda_advance_counterexample :
    cuda_solver_advance (2 ^ 64 - 1) 50000 512 ≠
      (2 ^ 64 - 1 + 50000 * 512) % 2 ^ 64 := by
  decide

/-- C6 amended: after every batch the GPU worker's nonce cursor advances
deterministically by exactly `update_interval * tpb` reduced modulo
`2^64 - 1` (the code's `nonce_limit`), wrapping at `2^64 - 1` rather than at
`2^64`. -/
theorem C6_cuda_advance_amended (nonce_start update_interval tpb : Nat) :
    cuda_solver_advance nonce_start update_interval tpb < 2 ^ 64 - 1 ∧
    cuda_solver_advance nonce_start update_interval tpb ≡
      nonce_start + update_interval * tpb [MOD 2 ^ 64 - 1] := by
  unfold cuda_solver_advance nonce_limit
  exact ⟨Nat.mod_lt _ (by norm_num), Nat.mod_modEq _ _⟩

/-- C5: the first-batch start is drawn by `random.randint(0, nonce_limit)`,
whose support includes `2^64 - 1` (outside the claimed `[0, 2^64 - 50000)`),
and the batch `[start, start + 50000)` started there contains the nonce
`2^64`, at which `nonce.to_bytes(8, "little")` raises `OverflowError` — so
an examined nonce escapes `[0, 2^64)` and crashes the worker. -/
theorem C5_nonce_range_bug :
    randint_support 0 nonce_limit (2 ^ 64 - 1) ∧
    ¬ (2 ^ 64 - 1 < 2 ^ 64 - 50000) ∧
    (2 ^ 64) ∈ solver_batch (2 ^ 64 - 1) 50000 ∧
    ¬ ((2 : Nat) ^ 64 < 2 ^ 64) ∧
    to_bytes_le (2 ^ 64) 8 = none := by
  refine ⟨⟨Nat.zero_le _, le_refl _⟩, by norm_num, ?_, by norm_num, ?_⟩
  · rw [solver_batch, List.mem_range'_1]
    constructor <;> norm_num
  · rw [to_bytes_le]
    norm_num

/-- Hex digit encode/decode round-trip for a nibble. -/
theorem hexCharVal_hexDigitChar (d : Nat) (h : d < 16) :
    hexCharVal (hexDigitChar d) = d := by
  unfold hexCharVal hexDigitChar
  split_ifs <;> omega

/-- Hex-decoding a hexlified byte list followed by any tail splits off the
original bytes. -/
theorem hex_bytes_to_u8_list_hexlify_append (a c : List Nat) (h : ∀ b ∈ a, b < 256) :
    hex_bytes_to_u8_list (hexlify a ++ c) = a ++ hex_bytes_to_u8_list c := by
  induction a with
  | nil => simp [hexlify]
  | cons b rest ih =>
    have hb : b < 256 := h b (List.mem_cons_self b rest)
    have hrest : ∀ x ∈ rest, x < 256 := fun x hx => h x (List.mem_cons_of_mem _ hx)
    rw [hexlify, List.cons_append, List.cons_append, hex_bytes_to_u8_list,
      hexCharVal_hexDigitChar (b / 16) (by omega),
      hexCharVal_hexDigitChar (b % 16) (by omega), ih hrest, List.cons_append]
    congr 1
    omega

/-- Hex-decoding inverts hexlifying on byte lists. -/
theorem hex_bytes_to_u8_list_hexlify (a : List Nat) (h : ∀ b ∈ a, b < 256) :
    hex_bytes_to_u8_list (hexlify a) = a := by
  have := hex_bytes_to_u8_list_hexlify_append a [] h
  simpa [hex_bytes_to_u8_list] using this

/-- A hexlified list is twice as long as its input. -/
theorem hexlify_length (a : List Nat) : (hexlify a).length = 2 * a.length := by
  induction a with
  | nil => simp [hexlify]
  | cons b rest ih =>
    rw [hexlify]
    simp [ih]
    omega

/-- The little-endian byte expansion produces bytes. -/
theorem toBytesLEList_lt (n len : Nat) : ∀ b ∈ toBytesLEList n len, b < 256 := by
  induction len generalizing n with
  | zero =>
    intro b hb
    simp [toBytesLEList] at hb
  | succ k ih =>
    intro b hb
    rw [toBytesLEList] at hb
    rcases List.mem_cons.mp hb with h | h
    · subst h
      exact Nat.mod_lt _ (by norm_num)
    · exact ih (n / 256) b h

/-- C1: for every 32-byte fingerprint `f` and u64 nonce `n`,
`_create_seal_hash(f, n)` is the Keccak-256 hash of the SHA-256 hash of the
byte sequence obtained by hex-decoding the concatenation of the hex encoding
of `n` written as 8 little-endian bytes and the hex encoding of `f` truncated
to its first 64 hex characters; that hex-decoded byte sequence is exactly the
8 little-endian nonce bytes followed by the first 32 bytes of `f` (all of
`f`). -/
theorem C1_create_seal_hash_spec (sha256 keccak256 : List Nat → List Nat)
    (f : List Nat) (n : Nat) (hf : f.length = 32) (hfb : ∀ b ∈ f, b < 256)
    (hn : n < 2 ^ 64) :
    create_seal_hash sha256 keccak256 f n =
      some (keccak256 (sha256 (hex_bytes_to_u8_list
        (hexlify (toBytesLEList n 8) ++ (hexlify f).take 64)))) ∧
    hex_bytes_to_u8_list (hexlify (toBytesLEList n 8) ++ (hexlify f).take 64) =
      toBytesLEList n 8 ++ f := by
  have htake : (hexlify f).take 64 = hexlify f := by
    apply List.take_of_length_le
    rw [hexlify_length, hf]
  constructor
  · rw [create_seal_hash, to_bytes_le]
    have : n < 2 ^ (8 * 8) := by norm_num at *; exact hn
    rw [if_pos this]
    rfl
  · rw [htake, hex_bytes_to_u8_list_hexlify_append _ _ (toBytesLEList_lt n 8),
      hex_bytes_to_u8_list_hexlify f hfb]

/-- C1 witness: the pipeline evaluated with identity hash primitives, the
all-zero 32-byte fingerprint and nonce 7. -/
theorem C1_create_seal_hash_spec_witness :
    create_seal_hash id id (List.replicate 32 0) 7 =
      some (id (id (hex_bytes_to_u8_list
        (hexlify (toBytesLEList 7 8) ++ (hexlify (List.replicate 32 0)).take 64)))) ∧
    hex_bytes_to_u8_list
        (hexlify (toBytesLEList 7 8) ++ (hexlify (List.replicate 32 0)).take 64) =
      toBytesLEList 7 8 ++ List.replicate 32 0 :=
  C1_create_seal_hash_spec id id (List.replicate 32 0) 7 (by simp) (by simp)
    (by norm_num)

/-- Accumulator form of the big-endian fold. -/
theorem int_from_bytes_be_foldl (acc : Nat) (l : List Nat) :
    l.foldl (fun a b => a * 256 + b) acc =
      acc * 256 ^ l.length + int_from_bytes_be l := by
  induction l generalizing acc with
  | nil => simp [int_from_bytes_be]
  | cons b rest ih =>
    have h1 : (b :: rest).foldl (fun a c => a * 256 + c) acc =
        rest.foldl (fun a c => a * 256 + c) (acc * 256 + b) := by
      simp
    have h2 : int_from_bytes_be (b :: rest) =
        rest.foldl (fun a c => a * 256 + c) b := by
      simp [int_from_bytes_be]
    rw [h1, h2, ih (acc * 256 + b), ih b]
    simp [List.length_cons]
    ring

/-- Peeling one byte off the big-endian value. -/
theorem int_from_bytes_be_cons (b : Nat) (rest : List Nat) :
    int_from_bytes_be (b :: rest) = b * 256 ^ rest.length + int_from_bytes_be rest := by
  have h2 : int_from_bytes_be (b :: rest) =
      rest.foldl (fun a c => a * 256 + c) b := by
    simp [int_from_bytes_be]
  rw [h2]
  exact int_from_bytes_be_foldl b rest

/-- The big-endian value of a byte list is bounded by `256 ^ length`. -/
theorem int_from_bytes_be_lt (l : List Nat) (h : ∀ b ∈ l, b < 256) :
    int_from_bytes_be l < 256 ^ l.length := by
  induction l with
  | nil => simp [int_from_bytes_be]
  | cons b rest ih =>
    have hb : b < 256 := h b (List.mem_cons_self b rest)
    have hrest : ∀ x ∈ rest, x < 256 := fun x hx => h x (List.mem_cons_of_mem _ hx)
    have hr := ih hrest
    rw [int_from_bytes_be_cons, List.length_cons, pow_succ]
    have hmul : b * 256 ^ rest.length ≤ 255 * 256 ^ rest.length :=
      Nat.mul_le_mul_right _ (by omega)
    omega

/-- The big-endian value of a byte list attains its maximum `256 ^ length - 1`
exactly on the all-`0xFF` list. -/
theorem int_from_bytes_be_max_iff (l : List Nat) (h : ∀ b ∈ l, b < 256) :
    int_from_bytes_be l = 256 ^ l.length - 1 ↔ l = List.replicate l.length 255 := by
  induction l with
  | nil => simp [int_from_bytes_be]
  | cons b rest ih =>
    have hb : b < 256 := h b (List.mem_cons_self b rest)
    have hrest : ∀ x ∈ rest, x < 256 := fun x hx => h x (List.mem_cons_of_mem _ hx)
    have hlt := int_from_bytes_be_lt rest hrest
    have hpow : 0 < 256 ^ rest.length := Nat.pos_pow_of_pos _ (by norm_num)
    rw [int_from_bytes_be_cons, List.length_cons, List.replicate_succ, pow_succ,
      List.cons_eq_cons]
    have hiff := ih hrest
    constructor
    · intro he
      have hb255 : b = 255 := by
        by_contra hne
        have hmul : b * 256 ^ rest.length ≤ 254 * 256 ^ rest.length :=
          Nat.mul_le_mul_right _ (by omega)
        omega
      subst hb255
      refine ⟨rfl, hiff.mp ?_⟩
      omega
    · rintro ⟨hb255, hr⟩
      subst hb255
      have := hiff.mpr hr
      omega

/-- For an in-range nonce `_create_seal_hash` returns the derived seal. -/
theorem create_seal_hash_eq (sha256 keccak256 : List Nat → List Nat)
    (f : List Nat) (n : Nat) (hn : n < 2 ^ 64) :
    create_seal_hash sha256 keccak256 f n =
      some (derived_seal sha256 keccak256 f n) := by
  rw [create_seal_hash, to_bytes_le, if_pos (show n < 2 ^ (8 * 8) by norm_num at *; exact hn)]
  rfl

/-- At difficulty 1 and limit `2^256 - 1`, a 32-byte seal meets the difficulty
exactly when it is not the all-ones seal. -/
theorem seal_meets_one_iff (s : List Nat) (hlen : s.length = 32)
    (hb : ∀ b ∈ s, b < 256) :
    seal_meets_difficulty s 1 pow_limit = true ↔ s ≠ List.replicate 32 255 := by
  rw [seal_meets_difficulty, decide_eq_true_eq, Nat.mul_one, pow_limit]
  have hpow : (2 : Nat) ^ 256 = 256 ^ 32 := by norm_num
  have hlt := int_from_bytes_be_lt s hb
  have hmax := int_from_bytes_be_max_iff s hb
  rw [hlen] at hlt hmax
  rw [hpow]
  constructor
  · intro hv hcontra
    rw [hmax.mpr hcontra] at hv
    omega
  · intro hne
    have : int_from_bytes_be s ≠ 256 ^ 32 - 1 := fun he => hne (hmax.mp he)
    omega

/-- C8: with difficulty 1 and limit `2^256 - 1`, `_seal_meets_difficulty` is
true for every 32-byte seal except the all-ones seal; consequently
`_solve_for_nonce_block` over any non-empty (u64-starting) range returns a
solution at its very first candidate nonce whenever that nonce's derived seal
(a 32-byte digest) is not all-ones. -/
theorem C8_difficulty_one_first_nonce :
    (∀ s : List Nat, s.length = 32 → (∀ b ∈ s, b < 256) →
      (seal_meets_difficulty s 1 pow_limit = true ↔ s ≠ List.replicate 32 255)) ∧
    (∀ (sha256 keccak256 : List Nat → List Nat) (f : List Nat)
        (nonce_start nonce_end : Nat) (bn : Int),
      nonce_start < nonce_end → nonce_start < 2 ^ 64 →
      (derived_seal sha256 keccak256 f nonce_start).length = 32 →
      (∀ b ∈ derived_seal sha256 keccak256 f nonce_start, b < 256) →
      derived_seal sha256 keccak256 f nonce_start ≠ List.replicate 32 255 →
      solve_for_nonce_block sha256 keccak256 nonce_start nonce_end f 1 pow_limit bn =
        .ok (some ⟨nonce_start, bn, 1, derived_seal sha256 keccak256 f nonce_start⟩)) := by
  refine ⟨seal_meets_one_iff, ?_⟩
  intro sha256 keccak256 f nonce_start nonce_end bn hlt hlt64 hlen hb hne
  have hmeets : seal_meets_difficulty (derived_seal sha256 keccak256 f nonce_start)
      1 pow_limit = true :=
    (seal_meets_one_iff _ hlen hb).mpr hne
  obtain ⟨k, hk⟩ : ∃ k, nonce_end - nonce_start = k + 1 :=
    ⟨nonce_end - nonce_start - 1, by omega⟩
  rw [solve_for_nonce_block, hk, solveLoop,
    create_seal_hash_eq sha256 keccak256 f nonce_start hlt64]
  simp [hmeets]

/-- C8 witness: with identity SHA-256 and a Keccak-256 stub returning the
all-zero digest, the first nonce of the range `[0, 50000)` immediately yields
the solution. -/
theorem C8_difficulty_one_first_nonce_witness :
    solve_for_nonce_block id (fun x => List.replicate 32 0) 0 50000 [] 1 pow_limit 5 =
      .ok (some ⟨0, 5, 1, List.replicate 32 0⟩) :=
  C8_difficulty_one_first_nonce.2 id (fun x => List.replicate 32 0) [] 0 50000 5
    (by norm_num) (by norm_num) (by simp [derived_seal]) (by simp [derived_seal])
    (by decide)

/-- Full functional specification of the nonce-block loop on a range of
nonces that stays inside the u64 space: it never raises, it returns `none`
exactly when no nonce of the range meets the difficulty, and any returned
solution is the least winning nonce with its derived seal and the call's
block number and difficulty. -/
theorem solveLoop_spec (sha256 keccak256 : List Nat → List Nat) (f : List Nat)
    (difficulty limit : Nat) (bn : Int) :
    ∀ (count nonce_start : Nat), nonce_start + count ≤ 2 ^ 64 →
      ((solveLoop sha256 keccak256 f difficulty limit bn nonce_start count = .ok none ↔
          ∀ m, nonce_start ≤ m → m < nonce_start + count →
            nonce_meets sha256 keccak256 f difficulty limit m = false) ∧
        (∀ sol, solveLoop sha256 keccak256 f difficulty limit bn nonce_start count =
              .ok (some sol) →
          nonce_start ≤ sol.nonce ∧ sol.nonce < nonce_start + count ∧
          nonce_meets sha256 keccak256 f difficulty limit sol.nonce = true ∧
          (∀ m, nonce_start ≤ m → m < sol.nonce →
            nonce_meets sha256 keccak256 f difficulty limit m = false) ∧
          sol.seal_ = derived_seal sha256 keccak256 f sol.nonce ∧
          sol.block_number = bn ∧ sol.difficulty = difficulty) ∧
        (∃ r, solveLoop sha256 keccak256 f difficulty limit bn nonce_start count =
          .ok r)) := by
  intro count
  induction count with
  | zero =>
    intro ns hle
    refine ⟨?_, ?_, ⟨none, rfl⟩⟩
    · rw [solveLoop]
      simp only [true_iff]
      intro m h1 h2
      omega
    · intro sol hsol
      rw [solveLoop] at hsol
      simp at hsol
  | succ k ih =>
    intro ns hle
    have hns : ns < 2 ^ 64 := by omega
    have hcs := create_seal_hash_eq sha256 keccak256 f ns hns
    have heq : solveLoop sha256 keccak256 f difficulty limit bn ns (k + 1) =
        if seal_meets_difficulty (derived_seal sha256 keccak256 f ns) difficulty limit then
          .ok (some ⟨ns, bn, difficulty, derived_seal sha256 keccak256 f ns⟩)
        else solveLoop sha256 keccak256 f difficulty limit bn (ns + 1) k := by
      rw [solveLoop, hcs]
    by_cases hm : nonce_meets sha256 keccak256 f difficulty limit ns = true
    · have hif : solveLoop sha256 keccak256 f difficulty limit bn ns (k + 1) =
          .ok (some ⟨ns, bn, difficulty, derived_seal sha256 keccak256 f ns⟩) := by
        rw [heq, if_pos (by rw [← nonce_meets]; exact hm)]
      refine ⟨?_, ?_, ⟨_, hif⟩⟩
      · rw [hif]
        constructor
        · intro hcontra
          simp at hcontra
        · intro hall
          have := hall ns le_rfl (by omega)
          rw [hm] at this
          simp at this
      · intro sol hsol
        rw [hif] at hsol
        have hs : (⟨ns, bn, difficulty, derived_seal sha256 keccak256 f ns⟩ :
            POWSolution) = sol := by
          injection hsol with h1
          injection h1
        subst hs
        dsimp only
        refine ⟨le_rfl, by omega, hm, ?_, rfl, rfl, rfl⟩
        intro m h1 h2
        omega
    · have hmf : nonce_meets sha256 keccak256 f difficulty limit ns = false := by
        simpa using hm
      have hif : solveLoop sha256 keccak256 f difficulty limit bn ns (k + 1) =
          solveLoop sha256 keccak256 f difficulty limit bn (ns + 1) k := by
        rw [heq, if_neg]
        rw [← nonce_meets, hmf]
        simp
      obtain ⟨ih1, ih2, ih3⟩ := ih (ns + 1) (by omega)
      refine ⟨?_, ?_, by rw [hif]; exact ih3⟩
      · rw [hif, ih1]
        constructor
        · intro hall m h1 h2
          rcases Nat.eq_or_lt_of_le h1 with he | hgt
          · rw [← he]
            exact hmf
          · exact hall m (by omega) (by omega)
        · intro hall m h1 h2
          exact hall m (by omega) (by omega)
      · intro sol hsol
        rw [hif] at hsol
        obtain ⟨h1, h2, h3, h4, h5, h6, h7⟩ := ih2 sol hsol
        refine ⟨by omega, by omega, h3, ?_, h5, h6, h7⟩
        intro m hm1 hm2
        rcases Nat.eq_or_lt_of_le hm1 with he | hgt
        · rw [← he]
          exact hmf
        · exact h4 m (by omega) hm2

/-- C10 counterexample: on the range `[2^64 - 1, 2^64 + 1)` with limit 0 no
seal can meet the difficulty, so the claim says the call returns `None`; the
code instead raises `OverflowError` at nonce `2^64` (embedded as
`Except.error ()`), which is neither `None` nor a solution. -/
theorem C10_solve_block_counterexample :
    solve_for_nonce_block id id (2 ^ 64 - 1) (2 ^ 64 + 1) [] 1 0 0 =
      .error () ∧
    (∀ (s : List Nat) (d : Nat), seal_meets_difficulty s d 0 = false) ∧
    (∀ r : Option POWSolution,
      (Except.error () : Except Unit (Option POWSolution)) ≠ .ok r) := by
  refine ⟨?_, ?_, ?_⟩
  · rfl
  · intro s d
    simp [seal_meets_difficulty]
  · intro r hcontra
    exact Except.noConfusion hcontra

/-- C10 amended: for every nonce range with `nonce_end ≤ 2^64` (so that every
examined nonce is a u64), `_solve_for_nonce_block` raises no error; it returns
`None` iff no nonce in `[nonce_start, nonce_end)` has a seal meeting the
difficulty, and otherwise returns a `POWSolution` whose nonce is the least
such nonce, whose seal is the seal derived for that nonce, and whose
`block_number` and `difficulty` equal exactly the `bn` and `d` it was called
with. -/
theorem C10_solve_for_nonce_block_amended (sha256 keccak256 : List Nat → List Nat)
    (f : List Nat) (nonce_start nonce_end difficulty limit : Nat) (bn : Int)
    (hend : nonce_end ≤ 2 ^ 64) :
    (∃ r, solve_for_nonce_block sha256 keccak256 nonce_start nonce_end f
        difficulty limit bn = .ok r) ∧
    (solve_for_nonce_block sha256 keccak256 nonce_start nonce_end f
        difficulty limit bn = .ok none ↔
      ∀ m, nonce_start ≤ m → m < nonce_end →
        nonce_meets sha256 keccak256 f difficulty limit m = false) ∧
    (∀ sol, solve_for_nonce_block sha256 keccak256 nonce_start nonce_end f
          difficulty limit bn = .ok (some sol) →
      nonce_start ≤ sol.nonce ∧ sol.nonce < nonce_end ∧
      nonce_meets sha256 keccak256 f difficulty limit sol.nonce = true ∧
      (∀ m, nonce_start ≤ m → m < sol.nonce →
        nonce_meets sha256 keccak256 f difficulty limit m = false) ∧
      sol.seal_ = derived_seal sha256 keccak256 f sol.nonce ∧
      sol.block_number = bn ∧ sol.difficulty = difficulty) := by
  rcases le_or_lt nonce_start nonce_end with hle | hgt
  · have hcount : nonce_start + (nonce_end - nonce_start) = nonce_end := by omega
    obtain ⟨h1, h2, h3⟩ := solveLoop_spec sha256 keccak256 f difficulty limit bn
      (nonce_end - nonce_start) nonce_start (by omega)
    rw [hcount] at h1 h2
    exact ⟨h3, h1, h2⟩
  · have hcount : nonce_end - nonce_start = 0 := by omega
    rw [solve_for_nonce_block, hcount]
    refine ⟨⟨none, rfl⟩, ?_, ?_⟩
    · rw [solveLoop]
      simp only [true_iff]
      intro m hm1 hm2
      omega
    · intro sol hsol
      rw [solveLoop] at hsol
      simp at hsol

/-- C10 witness: the amended theorem instantiated on the empty range
`[5, 5)`. -/
theorem C10_solve_for_nonce_block_amended_witness :
    ∃ r, solve_for_nonce_block id id 5 5 [] 3 0 7 = .ok r :=
  (C10_solve_for_nonce_block_amended id id [] 5 5 3 0 7 (by norm_num)).1

/-- Sum of a function mapped over `List.range` as a `Finset.range` sum. -/
theorem list_range_map_sum (g : Nat → ℚ) (n : Nat) :
    ((List.range n).map g).sum = ∑ i ∈ Finset.range n, g i := by
  induction n with
  | zero => simp
  | succ k ih =>
    rw [List.range_succ, List.map_append, List.sum_append, Finset.sum_range_succ, ih]
    simp

/-- C4 counterexample: push one sample of value 1 into the initial all-zero
window (`hash_rates = [0] * 10` then append / pop(0)).  With the default
`alpha = 0.80` and `N = 10`, the code's rate weights that most recent sample
by `alpha^9`, while the claim's weighting (most recent sample carries
`alpha^0`) gives a different value. -/
theorem C4_ewma_counterexample :
    hash_rate_ewma alpha_default n_samples_default
        (hash_rates_push (List.replicate 10 0) 1) ≠
      spec_hash_rate_ewma alpha_default n_samples_default
        (hash_rates_push (List.replicate 10 0) 1) := by
  have hw : hash_rates_push (List.replicate 10 (0 : ℚ)) 1 = [0, 0, 0, 0, 0, 0, 0, 0, 0, 1] := by
    rfl
  have hr : List.range 10 = [0, 1, 2, 3, 4, 5, 6, 7, 8, 9] := by rfl
  rw [alpha_default, n_samples_default, hash_rate_ewma, spec_hash_rate_ewma, hw,
    ewma_weights, hr]
  norm_num [List.getD]

/-- C4 amended: for every tick of the coordinator loop in which at least one
batch completed, the instantaneous hash rate is the weighted average over the
trailing window of the last N instantaneous samples in which the sample `i`
positions back (`i = 0` being the most recent sample, stored at the end of the
window) carries weight `alpha^(N-1-i)` — the weights decay from the oldest
window slot, so the oldest sample carries weight 1 — and the result equals
the weighted sum divided by the sum of the weights (alpha default 0.80, N
default 10). -/
theorem C4_ewma_amended :
    alpha_default = 4 / 5 ∧ n_samples_default = 10 ∧
    ∀ (alpha : ℚ) (n : Nat) (hash_rates : List ℚ), hash_rates.length = n →
      hash_rate_ewma alpha n hash_rates =
        ((List.range n).map
            (fun i => hash_rates.getD (n - 1 - i) 0 * alpha ^ (n - 1 - i))).sum
          / (ewma_weights alpha n).sum := by
  refine ⟨rfl, rfl, ?_⟩
  intro alpha n hash_rates hlen
  rw [hash_rate_ewma, list_range_map_sum, list_range_map_sum]
  rw [Finset.sum_range_reflect (fun i => hash_rates.getD i 0 * alpha ^ i) n]

/-- C4 witness: the amended weighting evaluated on the two-sample window
`[3, 5]` with decay 1/2. -/
theorem C4_ewma_amended_witness :
    hash_rate_ewma (1 / 2) 2 [3, 5] =
      ((List.range 2).map
          (fun i => ([3, 5] : List ℚ).getD (2 - 1 - i) 0 * (1 / 2) ^ (2 - 1 - i))).sum
        / (ewma_weights (1 / 2) 2).sum :=
  C4_ewma_amended.2.2 (1 / 2) 2 [3, 5] (by simp)

end Registration
